import Mathlib

/-! Shallow embedding of the `burst_models` package
(`src/burst_models/utils.py`, `src/burst_models/negbin_model.py`,
`src/burst_models/poisson_model.py`), together with proofs settling the
claims about it.

Conventions of the embedding.
* Python floats are modelled by the exact reals `ℝ`; integers by `ℕ`/`ℤ`.
* `scipy.stats.poisson.pmf` and `scipy.special.comb` are external
  collaborators (spec §1, §6); they are embedded by their mathematical
  contracts (`poisson_pmf`, `comb_ext` below).
* A Python exception is modelled by `Except.error` (used for the
  `NotImplementedError` raised by `NegBinBurstModel.fit_moments`).
* Where a claim hinges on IEEE-754 / numpy scalar semantics of division by
  zero (which returns a non-finite value and does *not* raise), a second
  embedding over the type `PyFloat` of numpy scalars is used; see the
  comments at `PyFloat` and `method_of_moments_poisson_np`.
-/

namespace BurstModels

open Finset

/-- External collaborator `scipy.stats.poisson.pmf`:
`P(N = n; lam) = exp(-lam) * lam^n / n!`. -/
noncomputable def poisson_pmf (n : ℕ) (lam : ℝ) : ℝ :=
  Real.exp (-lam) * lam ^ n / n.factorial

/-- `pmf_mixed_poisson(k, rate, k_off)` from `utils.py`:
`lam = rate / k_off`, `p0 = k_off / (rate + k_off)`, and the result is
`(lam**k / factorial(k)) * p0 * (rate / (rate + k_off)) ** k`. -/
noncomputable def pmf_mixed_poisson (k : ℕ) (rate k_off : ℝ) : ℝ :=
  let lam := rate / k_off
  let p0 := k_off / (rate + k_off)
  lam ^ k / (Nat.factorial k) * p0 * (rate / (rate + k_off)) ^ k

/-- `method_of_moments_poisson(xs, L)` from `utils.py`, over exact reals:
`mean_x = np.mean(x)` is the sum divided by the length, `var_x =
np.var(x, ddof=1)` is the sum of squared deviations divided by `n - 1`,
`lambda_hat = var_x / mean_x - 1`, `k_on_hat = mean_x / (lambda_hat * L)`.
(The subtraction `n - 1` in the divisor is real-valued, as in numpy.) -/
noncomputable def method_of_moments_poisson (xs : List ℝ) (L : ℝ) : ℝ × ℝ :=
  let n : ℝ := xs.length
  let mean_x := xs.sum / n
  let var_x := (xs.map (fun v => (v - mean_x) ^ 2)).sum / (n - 1)
  let lambda_hat := var_x / mean_x - 1
  let k_on_hat := mean_x / (lambda_hat * L)
  (lambda_hat, k_on_hat)

/-- One pairwise-convolution step of the compound engine: the inner double
loop of `pmf_total_compound` (`new[i + j] += pmf_sum[i] * pmf_burst(j)` for
`i + j ≤ x`), read off at index `m`.  For `m ≤ x` the entry produced by the
source's truncated array update is exactly
`∑ i ≤ m, pmf_sum[i] * pmf_burst(m - i)`: the truncation at `x` discards
only indices `> x`, and the entry at `m ≤ x` never reads them. -/
noncomputable def convStep (pmf_burst : ℕ → ℝ) (v : ℕ → ℝ) (m : ℕ) : ℝ :=
  ∑ i ∈ Finset.range (m + 1), v i * pmf_burst (m - i)

/-- The `b`-fold convolution built by `pmf_total_compound`: the array
`pmf_sum` starts as the point mass at `0` (`pmf_sum[0] = 1.0`) and is
convolved with `pmf_burst` once per iteration of `for _ in range(b)`. -/
noncomputable def convPow (pmf_burst : ℕ → ℝ) : ℕ → ℕ → ℝ
  | 0 => fun m => if m = 0 then 1 else 0
  | b + 1 => convStep pmf_burst (convPow pmf_burst b)

/-- `pmf_total_compound(x, pmf_burst, k_on, L, max_bursts)` from `utils.py`:
`lam_b = k_on * L`; the loop `for b in range(0, max_bursts + 1)` accumulates
`poisson.pmf(b, lam_b) * (1.0 if x == 0 else 0.0)` for `b = 0` and
`poisson.pmf(b, lam_b) * pmf_sum[x]` (the `b`-fold convolution at `x`)
for `b ≥ 1`. -/
noncomputable def pmf_total_compound (x : ℕ) (pmf_burst : ℕ → ℝ) (k_on L : ℝ)
    (max_bursts : ℕ) : ℝ :=
  let lam_b := k_on * L
  ∑ b ∈ Finset.range (max_bursts + 1),
    poisson_pmf b lam_b *
      (if b = 0 then (if x = 0 then 1 else 0) else convPow pmf_burst b x)

/-- External collaborator `scipy.special.comb` with real first argument:
the generalized binomial coefficient `C(a, b) = Γ(a+1)/(Γ(b+1)·Γ(a-b+1))`
(spec §1). -/
noncomputable def comb_ext (a : ℝ) (b : ℕ) : ℝ :=
  Real.Gamma (a + 1) / (Real.Gamma (b + 1) * Real.Gamma (a - b + 1))

/-- `NegBinBurstModel(k_on, mu_b, alpha)` from `negbin_model.py`: the
constructor stores its three parameters unchanged. -/
structure NegBinBurstModel where
  k_on : ℝ
  mu_b : ℝ
  alpha : ℝ

/-- `NegBinBurstModel.burst_size_pmf(k)`:
`p = alpha / (alpha + mu_b)`; result `comb(k + alpha - 1, k) * p**alpha *
(1 - p)**k`.  (`p ** alpha` for real `alpha` is the real power.) -/
noncomputable def NegBinBurstModel.burst_size_pmf (m : NegBinBurstModel) (k : ℕ) : ℝ :=
  let p := m.alpha / (m.alpha + m.mu_b)
  comb_ext (k + m.alpha - 1) k * p ^ m.alpha * (1 - p) ^ k

/-- `NegBinBurstModel.total_transcripts_pmf(x, L, max_bursts)`: delegates to
the compound engine with this model's burst-size PMF as the callback. -/
noncomputable def NegBinBurstModel.total_transcripts_pmf (m : NegBinBurstModel)
    (x : ℕ) (L : ℝ) (max_bursts : ℕ) : ℝ :=
  pmf_total_compound x m.burst_size_pmf m.k_on L max_bursts

/-- `NegBinBurstModel.first_moments(L)`:
`E_N = mu_b`, `Var_N = mu_b + mu_b**2 / alpha`, `E_B = k_on * L`,
`mean = E_B * E_N`, `var = E_B * Var_N + E_B * E_N**2`,
`index = var / mean`; returns `(mean, var, index)`. -/
noncomputable def NegBinBurstModel.first_moments (m : NegBinBurstModel) (L : ℝ) :
    ℝ × ℝ × ℝ :=
  let E_N := m.mu_b
  let Var_N := m.mu_b + m.mu_b ^ 2 / m.alpha
  let E_B := m.k_on * L
  let mean := E_B * E_N
  let var := E_B * Var_N + E_B * E_N ^ 2
  let index := var / mean
  (mean, var, index)

/-- `NegBinBurstModel.fit_moments(data, L)` from `negbin_model.py`:
unconditionally `raise NotImplementedError("Moment fitting for NB model not
implemented yet")`.  The raised exception is modelled as `Except.error`
carrying the exception message. -/
def NegBinBurstModel.fit_moments (_data : List ℤ) (_L : ℝ) :
    Except String (ℝ × ℝ × ℝ) :=
  Except.error "Moment fitting for NB model not implemented yet"

/-- `PoissonBurstModel(k_on, k_off, r, p)` from `poisson_model.py`: stores
the four parameters and the derived `lambda_b = p * r / k_off`. -/
structure PoissonBurstModel where
  k_on : ℝ
  k_off : ℝ
  r : ℝ
  p : ℝ
  lambda_b : ℝ

/-- The `PoissonBurstModel.__init__` constructor: `lambda_b` is set to
`p * r / k_off` at construction. -/
noncomputable def PoissonBurstModel.make (k_on k_off r p : ℝ) : PoissonBurstModel :=
  ⟨k_on, k_off, r, p, p * r / k_off⟩

/-- `PoissonBurstModel.burst_size_pmf(k)`: delegates to `pmf_mixed_poisson`
with `rate = p * r`. -/
noncomputable def PoissonBurstModel.burst_size_pmf (m : PoissonBurstModel) (k : ℕ) : ℝ :=
  pmf_mixed_poisson k (m.p * m.r) m.k_off

/-- `PoissonBurstModel.total_transcripts_pmf(x, L, max_bursts)`. -/
noncomputable def PoissonBurstModel.total_transcripts_pmf (m : PoissonBurstModel)
    (x : ℕ) (L : ℝ) (max_bursts : ℕ) : ℝ :=
  pmf_total_compound x m.burst_size_pmf m.k_on L max_bursts

/-- `PoissonBurstModel.first_moments(L)`:
`E_N = lambda_b`, `Var_N = lambda_b + lambda_b**2`, `E_B = k_on * L`,
`mean = E_B * E_N`, `var = E_B * Var_N + E_B * E_N**2`,
`index = var / mean`; returns `(mean, var, index)`. -/
noncomputable def PoissonBurstModel.first_moments (m : PoissonBurstModel) (L : ℝ) :
    ℝ × ℝ × ℝ :=
  let E_N := m.lambda_b
  let Var_N := m.lambda_b + m.lambda_b ^ 2
  let E_B := m.k_on * L
  let mean := E_B * E_N
  let var := E_B * Var_N + E_B * E_N ^ 2
  let index := var / mean
  (mean, var, index)

/-- `PoissonBurstModel.fit_moments(data, L)`: delegates to
`method_of_moments_poisson`. -/
noncomputable def PoissonBurstModel.fit_moments (data : List ℤ) (L : ℝ) : ℝ × ℝ :=
  method_of_moments_poisson (data.map fun z => (z : ℝ)) L

/-! ### numpy scalar semantics for the estimator

The source builds `x = np.array(xs)`, so `mean_x = np.mean(x)` and
`var_x = np.var(x, ddof=1)` are numpy scalars (`np.float64`), and the
divisions in `lambda_hat = var_x / mean_x - 1` and
`k_on_hat = mean_x / (lambda_hat * L)` follow IEEE-754 / numpy semantics:
division by zero emits a `RuntimeWarning` and yields a *non-finite value*
(`nan` for `0/0`, `±inf` otherwise); it does not raise an exception.  To
settle the claim about the zero-sample-mean degeneracy, the estimator is
re-embedded below with those scalar semantics made explicit.  `PyFloat`
models an `np.float64` as either a finite real or a non-finite value
(`nan`, or `inf` with a sign); all finite zeros are treated as `+0`,
which is faithful here because the data are non-negative observed totals,
so no negative zero can arise in the computation. -/

/-- An IEEE-754 double as produced by numpy scalar arithmetic: a finite
real number, `nan`, or a signed infinity (`inf true` is `-∞`). -/
inductive PyFloat where
  | fin : ℝ → PyFloat
  | nan : PyFloat
  | inf : Bool → PyFloat

/-- IEEE-754 subtraction on `PyFloat` (finite results exact). -/
noncomputable def PyFloat.sub : PyFloat → PyFloat → PyFloat
  | .nan, _ => .nan
  | _, .nan => .nan
  | .inf s, .inf t => if s = t then .nan else .inf s
  | .inf s, .fin _ => .inf s
  | .fin _, .inf t => .inf (!t)
  | .fin a, .fin b => .fin (a - b)

/-- IEEE-754 multiplication on `PyFloat` (finite results exact; finite
zeros treated as `+0`). -/
noncomputable def PyFloat.mul : PyFloat → PyFloat → PyFloat
  | .nan, _ => .nan
  | _, .nan => .nan
  | .inf s, .inf t => .inf (xor s t)
  | .inf s, .fin b => if b = 0 then .nan else .inf (xor s (b < 0))
  | .fin a, .inf t => if a = 0 then .nan else .inf (xor (a < 0) t)
  | .fin a, .fin b => .fin (a * b)

/-- IEEE-754 division on `PyFloat`: `0/0` is `nan`, `a/0` for `a ≠ 0` is a
signed infinity, `a/±∞` is zero; numpy warns on these but never raises. -/
noncomputable def PyFloat.div : PyFloat → PyFloat → PyFloat
  | .nan, _ => .nan
  | _, .nan => .nan
  | .inf _, .inf _ => .nan
  | .inf s, .fin b => .inf (xor s (b < 0))
  | .fin _, .inf _ => .fin 0
  | .fin a, .fin b =>
      if b = 0 then (if a = 0 then .nan else .inf (a < 0)) else .fin (a / b)

/-- `method_of_moments_poisson(xs, L)` re-embedded with numpy scalar
semantics (`PyFloat`).  `np.mean` and `np.var(·, ddof=1)` of a finite
array with `n ≥ 2` are finite (and, on all-zero data, exact), so they are
embedded as `.fin` of the same real expressions as in
`method_of_moments_poisson`; the two divisions and the subtraction and
multiplication downstream of them use the IEEE operations, which return
non-finite values instead of raising on division by zero.  The function is
total: no execution path raises. -/
noncomputable def method_of_moments_poisson_np (xs : List ℝ) (L : ℝ) :
    PyFloat × PyFloat :=
  let n : ℝ := xs.length
  let mean_x : PyFloat := .fin (xs.sum / n)
  let var_x : PyFloat := .fin ((xs.map (fun v => (v - xs.sum / n) ^ 2)).sum / (n - 1))
  let lambda_hat := PyFloat.sub (PyFloat.div var_x mean_x) (.fin 1)
  let k_on_hat := PyFloat.div mean_x (PyFloat.mul lambda_hat (.fin L))
  (lambda_hat, k_on_hat)

/-! ### Spec-side definitions

`sampleMean` and `sampleVarUnbiased` transcribe the spec's description of
the estimator (§4.5): sample mean, and unbiased sample variance with
divisor `n - 1`.  They are compared with the source embedding
`method_of_moments_poisson` in the refinement theorem below. -/

/-- Sample mean, as the spec words it. -/
noncomputable def sampleMean (xs : List ℝ) : ℝ := xs.sum / xs.length

/-- Unbiased sample variance (divisor `n - 1`), as the spec words it. -/
noncomputable def sampleVarUnbiased (xs : List ℝ) : ℝ :=
  (xs.map (fun v => (v - sampleMean xs) ^ 2)).sum / (xs.length - 1)

/-- A list of non-negative reals with zero sum is identically zero. -/
lemma list_all_zero_of_sum_eq_zero {xs : List ℝ} (h0 : ∀ v ∈ xs, 0 ≤ v)
    (hs : xs.sum = 0) : ∀ v ∈ xs, v = 0 := by
  induction xs with
  | nil => simp
  | cons a t ih =>
    simp only [List.sum_cons] at hs
    have ha := h0 a (by simp)
    have ht : 0 ≤ t.sum := List.sum_nonneg fun v hv => h0 v (by simp [hv])
    have ha0 : a = 0 := le_antisymm (by linarith) ha
    have hts : t.sum = 0 := by linarith
    intro v hv
    rcases List.mem_cons.mp hv with rfl | hv
    · exact ha0
    · exact ih (fun w hw => h0 w (by simp [hw])) hts v hv

/-- C6: on a sample of length at least 2 with positive sample mean and
`L > 0`, `method_of_moments_poisson` returns exactly
`(v/m - 1, m / ((v/m - 1) * L))` with `m` the sample mean and `v` the
unbiased (divisor `n - 1`) sample variance. -/
theorem mom_poisson_matches_spec (xs : List ℝ) (L : ℝ) (h2 : 2 ≤ xs.length)
    (hm : 0 < sampleMean xs) (hL : 0 < L) :
    method_of_moments_poisson xs L =
      (sampleVarUnbiased xs / sampleMean xs - 1,
       sampleMean xs / ((sampleVarUnbiased xs / sampleMean xs - 1) * L)) := rfl

/-- Witness for `mom_poisson_matches_spec` at `xs = [0, 2]`, `L = 1`. -/
theorem mom_poisson_matches_spec_witness :
    2 ≤ ([0, 2] : List ℝ).length ∧ 0 < sampleMean [0, 2] ∧ (0:ℝ) < 1 ∧
      method_of_moments_poisson [0, 2] 1 =
        (sampleVarUnbiased [0, 2] / sampleMean [0, 2] - 1,
         sampleMean [0, 2] / ((sampleVarUnbiased [0, 2] / sampleMean [0, 2] - 1) * 1)) :=
  ⟨by norm_num, by norm_num [sampleMean], by norm_num,
    mom_poisson_matches_spec [0, 2] 1 (by norm_num)
      (by norm_num [sampleMean]) (by norm_num)⟩

/-- C4 counterexample: at the concrete all-zero sample `[0, 0]` (sample
mean `0`) and `L = 1`, the estimator under numpy scalar semantics returns
the pair `(nan, nan)` — it returns normally; the division by zero is not
raised as an error condition. -/
theorem mom_zero_mean_counterexample :
    method_of_moments_poisson_np [0, 0] 1 = (PyFloat.nan, PyFloat.nan) := by
  norm_num [method_of_moments_poisson_np, PyFloat.div, PyFloat.sub, PyFloat.mul]

/-- C4 amended: on any sample of non-negative observed totals with sample
mean zero and length at least 2, the estimator under numpy scalar
semantics does not raise: it returns normally, with both components the
non-finite value `nan` (so no normally computed finite value either). -/
theorem mom_zero_mean_returns_nan (xs : List ℝ) (L : ℝ)
    (hpos : ∀ v ∈ xs, 0 ≤ v) (hlen : 2 ≤ xs.length)
    (hmean : xs.sum / (xs.length : ℝ) = 0) :
    method_of_moments_poisson_np xs L = (PyFloat.nan, PyFloat.nan) := by
  have hne : (xs.length : ℝ) ≠ 0 := by
    have : (2 : ℝ) ≤ xs.length := by exact_mod_cast hlen
    linarith
  have hsum : xs.sum = 0 := by
    rcases div_eq_zero_iff.mp hmean with h | h
    · exact h
    · exact absurd h hne
  have hall := list_all_zero_of_sum_eq_zero hpos hsum
  have hsq : (List.map (fun v : ℝ => v ^ 2) xs).sum = 0 := by
    refine List.sum_eq_zero fun y hy => ?_
    obtain ⟨v, hv, rfl⟩ := List.mem_map.mp hy
    rw [hall v hv]
    ring
  simp [method_of_moments_poisson_np, hsum, hsq, zero_div,
    PyFloat.div, PyFloat.sub, PyFloat.mul]

/-- Witness for `mom_zero_mean_returns_nan` at `xs = [0, 0]`, `L = 2`:
the sample has length 2 and sample mean 0, and the theorem applies. -/
theorem mom_zero_mean_returns_nan_witness :
    2 ≤ ([0, 0] : List ℝ).length ∧
      ([0, 0] : List ℝ).sum / (([0, 0] : List ℝ).length : ℝ) = 0 ∧
      method_of_moments_poisson_np [0, 0] 2 = (PyFloat.nan, PyFloat.nan) :=
  ⟨by norm_num, by norm_num,
    mom_zero_mean_returns_nan [0, 0] 2 (by norm_num) (by norm_num) (by norm_num)⟩

/-- C5: `NegBinBurstModel.fit_moments` signals the `NotImplementedError`
failure on every input; it never returns a value. -/
theorem negbin_fit_moments_not_implemented (data : List ℤ) (L : ℝ) :
    NegBinBurstModel.fit_moments data L =
      Except.error "Moment fitting for NB model not implemented yet" := rfl

/-- C7: for both model variants (constructed from arbitrary valid
parameters) the burstiness index returned by `first_moments` equals
variance divided by mean, exactly. -/
theorem first_moments_index_eq_var_div_mean
    (k_on mu_b alpha k_on2 k_off r p L : ℝ)
    (hk : 0 < k_on) (hmu : 0 < mu_b) (hal : 0 < alpha)
    (hk2 : 0 < k_on2) (hko : 0 < k_off) (hr : 0 < r)
    (hp : 0 < p) (hp1 : p ≤ 1) (hL : 0 < L) :
    ((NegBinBurstModel.mk k_on mu_b alpha).first_moments L).2.2 =
        ((NegBinBurstModel.mk k_on mu_b alpha).first_moments L).2.1 /
          ((NegBinBurstModel.mk k_on mu_b alpha).first_moments L).1 ∧
      ((PoissonBurstModel.make k_on2 k_off r p).first_moments L).2.2 =
        ((PoissonBurstModel.make k_on2 k_off r p).first_moments L).2.1 /
          ((PoissonBurstModel.make k_on2 k_off r p).first_moments L).1 :=
  ⟨rfl, rfl⟩

/-- Witness for `first_moments_index_eq_var_div_mean` with all parameters
equal to 1 (and `p = 1/2`), `L = 1`. -/
theorem first_moments_index_eq_var_div_mean_witness :
    (0:ℝ) < 1 ∧ (0:ℝ) < 1/2 ∧ (1/2:ℝ) ≤ 1 ∧
      ((NegBinBurstModel.mk 1 1 1).first_moments 1).2.2 =
          ((NegBinBurstModel.mk 1 1 1).first_moments 1).2.1 /
            ((NegBinBurstModel.mk 1 1 1).first_moments 1).1 ∧
        ((PoissonBurstModel.make 1 1 1 (1/2)).first_moments 1).2.2 =
          ((PoissonBurstModel.make 1 1 1 (1/2)).first_moments 1).2.1 /
            ((PoissonBurstModel.make 1 1 1 (1/2)).first_moments 1).1 :=
  ⟨by norm_num, by norm_num, by norm_num,
    first_moments_index_eq_var_div_mean 1 1 1 1 1 1 (1/2) 1
      (by norm_num) (by norm_num) (by norm_num) (by norm_num) (by norm_num)
      (by norm_num) (by norm_num) (by norm_num) (by norm_num)⟩

/-- C8: with `rate = 0` and any `k_off > 0`, the mixed-Poisson burst-size
PMF is the point mass at 0: `pmf_mixed_poisson 0 0 k_off = 1` and
`pmf_mixed_poisson k 0 k_off = 0` for every `k > 0`. -/
theorem pmf_mixed_poisson_zero_rate (k_off : ℝ) (h : 0 < k_off) :
    pmf_mixed_poisson 0 0 k_off = 1 ∧
      ∀ k : ℕ, 0 < k → pmf_mixed_poisson k 0 k_off = 0 := by
  constructor
  · simp [pmf_mixed_poisson, div_self h.ne']
  · intro k hk
    simp [pmf_mixed_poisson, zero_pow hk.ne']

/-- Witness for `pmf_mixed_poisson_zero_rate` at `k_off = 1` (evaluating
the second conjunct at `k = 2`). -/
theorem pmf_mixed_poisson_zero_rate_witness :
    (0:ℝ) < 1 ∧ pmf_mixed_poisson 0 0 1 = 1 ∧ pmf_mixed_poisson 2 0 1 = 0 :=
  ⟨by norm_num, (pmf_mixed_poisson_zero_rate 1 (by norm_num)).1,
    (pmf_mixed_poisson_zero_rate 1 (by norm_num)).2 2 (by norm_num)⟩

/-- C9: the worked example `NegBinBurstModel(k_on=0.5, mu_b=2.0, alpha=3.0)`
has `first_moments(L=1.0)` with mean exactly 1 and variance exactly 11/3. -/
theorem negbin_worked_example :
    ((NegBinBurstModel.mk 0.5 2 3).first_moments 1).1 = 1 ∧
      ((NegBinBurstModel.mk 0.5 2 3).first_moments 1).2.1 = 11 / 3 := by
  constructor <;> norm_num [NegBinBurstModel.first_moments]

/-! ### The compound-distribution engine -/

/-- If the burst-size PMF is the point mass at 1, the `b`-fold convolution
is the point mass at `b`. -/
lemma convPow_point_one {f : ℕ → ℝ} (hf1 : f 1 = 1)
    (hf0 : ∀ k, k ≠ 1 → f k = 0) :
    ∀ b m, convPow f b m = if m = b then 1 else 0 := by
  intro b
  induction b with
  | zero => intro m; rfl
  | succ b ih =>
    intro m
    simp only [convPow, convStep, ih]
    have hterm : ∀ i ∈ Finset.range (m + 1),
        (if i = b then (1:ℝ) else 0) * f (m - i) =
          if i = b then f (m - i) else 0 := by
      intro i _
      by_cases hib : i = b <;> simp [hib]
    rw [Finset.sum_congr rfl hterm, Finset.sum_ite_eq']
    by_cases hmb : m = b + 1
    · subst hmb
      simp [Finset.mem_range, Nat.add_sub_cancel_left, hf1]
      omega
    · rcases Nat.lt_or_ge b (m + 1) with hb | hb
      · rw [if_pos (Finset.mem_range.mpr hb), hf0 (m - b) (by omega), if_neg hmb]
      · rw [if_neg (by simp only [Finset.mem_range]; omega), if_neg hmb]

/-- C1: if the burst-size PMF is the point mass at 1, the compound engine
returns exactly the Poisson PMF with mean `k_on * L`, for every
`x ≤ max_bursts`. -/
theorem compound_point_mass_is_poisson (x : ℕ) (f : ℕ → ℝ) (k_on L : ℝ)
    (max_bursts : ℕ) (hk : 0 < k_on) (hL : 0 < L) (hx : x ≤ max_bursts)
    (hf1 : f 1 = 1) (hf0 : ∀ k, k ≠ 1 → f k = 0) :
    pmf_total_compound x f k_on L max_bursts = poisson_pmf x (k_on * L) := by
  simp only [pmf_total_compound]
  have hterm : ∀ b ∈ Finset.range (max_bursts + 1),
      poisson_pmf b (k_on * L) *
          (if b = 0 then (if x = 0 then (1:ℝ) else 0) else convPow f b x) =
        if x = b then poisson_pmf b (k_on * L) else 0 := by
    intro b _
    by_cases hb : b = 0
    · subst hb
      by_cases hx0 : x = 0 <;> simp [hx0]
    · rw [if_neg hb, convPow_point_one hf1 hf0 b x]
      by_cases hxb : x = b <;> simp [hxb]
  rw [Finset.sum_congr rfl hterm, Finset.sum_ite_eq,
    if_pos (Finset.mem_range.mpr (Nat.lt_succ_of_le hx))]

/-- Witness for `compound_point_mass_is_poisson` at `x = 2`,
`f = point mass at 1`, `k_on = L = 1`, `max_bursts = 3`. -/
theorem compound_point_mass_is_poisson_witness :
    (0:ℝ) < 1 ∧ (2:ℕ) ≤ 3 ∧
      pmf_total_compound 2 (fun k => if k = 1 then (1:ℝ) else 0) 1 1 3 =
        poisson_pmf 2 (1 * 1) :=
  ⟨by norm_num, by norm_num,
    compound_point_mass_is_poisson 2 (fun k => if k = 1 then (1:ℝ) else 0) 1 1 3
      (by norm_num) (by norm_num) (by norm_num) (by simp)
      (fun k hk => if_neg hk)⟩

/-- C3: if the burst-size PMF gives zero mass to size 0, the engine returns
`exp (-(k_on * L))` at `x = 0`, for every truncation bound and independent
of the PMF's values above 0. -/
theorem compound_zero_burst (f : ℕ → ℝ) (k_on L : ℝ) (max_bursts : ℕ)
    (hk : 0 < k_on) (hL : 0 < L) (hf0 : f 0 = 0) :
    pmf_total_compound 0 f k_on L max_bursts = Real.exp (-(k_on * L)) := by
  simp only [pmf_total_compound]
  rw [Finset.sum_eq_single 0]
  · simp [poisson_pmf]
  · intro b _ hb
    rw [if_neg hb]
    cases b with
    | zero => exact absurd rfl hb
    | succ b => simp [convPow, convStep, hf0]
  · intro h
    exact absurd (Finset.mem_range.mpr (Nat.succ_pos max_bursts)) h

/-- Witness for `compound_zero_burst` with `f 0 = 0`, `f (k>0) = 1`,
`k_on = L = 1`, `max_bursts = 2`. -/
theorem compound_zero_burst_witness :
    (0:ℝ) < 1 ∧
      pmf_total_compound 0 (fun k => if k = 0 then (0:ℝ) else 1) 1 1 2 =
        Real.exp (-(1 * 1)) :=
  ⟨by norm_num,
    compound_zero_burst (fun k => if k = 0 then (0:ℝ) else 1) 1 1 2
      (by norm_num) (by norm_num) (by simp)⟩

/-- Burst-size PMFs agreeing up to `x` give identical convolutions at every
index up to `x`. -/
lemma convPow_congr {f g : ℕ → ℝ} {x : ℕ} (h : ∀ j ≤ x, f j = g j) :
    ∀ b, ∀ m ≤ x, convPow f b m = convPow g b m := by
  intro b
  induction b with
  | zero => intro m _; rfl
  | succ b ih =>
    intro m hm
    simp only [convPow, convStep]
    refine Finset.sum_congr rfl fun i hi => ?_
    have hi' : i ≤ m := Nat.lt_succ_iff.mp (Finset.mem_range.mp hi)
    rw [ih i (le_trans hi' hm), h (m - i) (le_trans (Nat.sub_le m i) hm)]

/-- C10: the engine's output depends on the burst-size callback only
through its values at arguments `0, …, x`. -/
theorem compound_depends_only_on_values_up_to_x (x : ℕ) (f g : ℕ → ℝ)
    (k_on L : ℝ) (max_bursts : ℕ) (hfg : ∀ j ≤ x, f j = g j) :
    pmf_total_compound x f k_on L max_bursts =
      pmf_total_compound x g k_on L max_bursts := by
  simp only [pmf_total_compound]
  refine Finset.sum_congr rfl fun b _ => ?_
  by_cases hb : b = 0
  · simp [hb]
  · rw [if_neg hb, if_neg hb, convPow_congr hfg b x le_rfl]

/-- Witness for `compound_depends_only_on_values_up_to_x` at `x = 1` with
two callbacks that differ only above 1. -/
theorem compound_depends_only_on_values_up_to_x_witness :
    (fun _ : ℕ => (0:ℝ)) 0 = (fun j => if j ≤ 1 then (0:ℝ) else 1) 0 ∧
      (fun _ : ℕ => (0:ℝ)) 1 = (fun j => if j ≤ 1 then (0:ℝ) else 1) 1 ∧
      pmf_total_compound 1 (fun _ => (0:ℝ)) 1 1 2 =
        pmf_total_compound 1 (fun j => if j ≤ 1 then (0:ℝ) else 1) 1 1 2 :=
  ⟨by norm_num, by norm_num,
    compound_depends_only_on_values_up_to_x 1 (fun _ => (0:ℝ))
      (fun j => if j ≤ 1 then (0:ℝ) else 1) 1 1 2 (fun j hj => by simp [hj])⟩

/-- The iterated convolution of non-negative callbacks is non-negative. -/
lemma convPow_nonneg {f : ℕ → ℝ} (hf : ∀ k, 0 ≤ f k) :
    ∀ b m, 0 ≤ convPow f b m := by
  intro b
  induction b with
  | zero => intro m; by_cases h : m = 0 <;> simp [convPow, h]
  | succ b ih =>
    intro m
    simp only [convPow, convStep]
    exact Finset.sum_nonneg fun i _ => mul_nonneg (ih i) (hf _)

/-- A convolution step written as a sum over the antidiagonal. -/
lemma convStep_eq_sum_antidiagonal (f v : ℕ → ℝ) (m : ℕ) :
    convStep f v m = ∑ p ∈ Finset.antidiagonal m, v p.1 * f p.2 := by
  simp only [convStep]
  exact (Finset.Nat.sum_antidiagonal_eq_sum_range_succ_mk
    (fun p => v p.1 * f p.2) m).symm

/-- A convolution step of two non-negative mass functions of total mass at
most 1 again has total mass at most 1 on every initial segment. -/
lemma sum_convStep_le_one {f v : ℕ → ℝ} (hf : ∀ k, 0 ≤ f k) (hv : ∀ k, 0 ≤ v k)
    (hfs : ∀ N, ∑ k ∈ Finset.range N, f k ≤ 1)
    (hvs : ∀ N, ∑ k ∈ Finset.range N, v k ≤ 1) (N : ℕ) :
    ∑ m ∈ Finset.range N, convStep f v m ≤ 1 := by
  have hdisj : (↑(Finset.range N) : Set ℕ).PairwiseDisjoint
      (fun m => Finset.antidiagonal m) := by
    intro a _ b _ hab
    simp only [Function.onFun, Finset.disjoint_left]
    intro p hpa hpb
    rw [Finset.mem_antidiagonal] at hpa hpb
    exact hab (by rw [← hpa, hpb])
  have hsub : (Finset.range N).biUnion (fun m => Finset.antidiagonal m) ⊆
      Finset.range N ×ˢ Finset.range N := by
    intro p hp
    simp only [Finset.mem_biUnion, Finset.mem_antidiagonal,
      Finset.mem_range] at hp
    obtain ⟨m, hm, hpm⟩ := hp
    simp only [Finset.mem_product, Finset.mem_range]
    omega
  calc ∑ m ∈ Finset.range N, convStep f v m
      = ∑ p ∈ (Finset.range N).biUnion (fun m => Finset.antidiagonal m),
          v p.1 * f p.2 := by
        rw [Finset.sum_biUnion hdisj]
        exact Finset.sum_congr rfl fun m _ => convStep_eq_sum_antidiagonal f v m
    _ ≤ ∑ p ∈ Finset.range N ×ˢ Finset.range N, v p.1 * f p.2 :=
        Finset.sum_le_sum_of_subset_of_nonneg hsub
          (fun p _ _ => mul_nonneg (hv _) (hf _))
    _ = (∑ i ∈ Finset.range N, v i) * (∑ j ∈ Finset.range N, f j) := by
        rw [Finset.sum_product]
        exact (Finset.sum_mul_sum _ _ _ _).symm
    _ ≤ 1 * 1 :=
        mul_le_mul (hvs N) (hfs N) (Finset.sum_nonneg fun j _ => hf j) zero_le_one
    _ = 1 := mul_one 1

/-- Every iterated convolution of a sub-probability mass function has total
mass at most 1 on every initial segment. -/
lemma sum_convPow_le_one {f : ℕ → ℝ} (hf : ∀ k, 0 ≤ f k)
    (hfs : ∀ N, ∑ k ∈ Finset.range N, f k ≤ 1) :
    ∀ b N, ∑ m ∈ Finset.range N, convPow f b m ≤ 1 := by
  intro b
  induction b with
  | zero =>
    intro N
    simp only [convPow]
    rw [Finset.sum_ite_eq' (Finset.range N) 0 (fun _ => (1:ℝ))]
    split <;> norm_num
  | succ b ih =>
    intro N
    exact sum_convStep_le_one hf (convPow_nonneg hf b) hfs ih N

/-- Each entry of an iterated convolution of a sub-probability mass
function is at most 1. -/
lemma convPow_le_one {f : ℕ → ℝ} (hf : ∀ k, 0 ≤ f k)
    (hfs : ∀ N, ∑ k ∈ Finset.range N, f k ≤ 1) (b x : ℕ) :
    convPow f b x ≤ 1 :=
  le_trans
    (Finset.single_le_sum (fun m _ => convPow_nonneg hf b m)
      (Finset.mem_range.mpr (Nat.lt_succ_self x)))
    (sum_convPow_le_one hf hfs b (x + 1))

/-- The Poisson PMF is non-negative for non-negative rates. -/
lemma poisson_pmf_nonneg {lam : ℝ} (h : 0 ≤ lam) (n : ℕ) :
    0 ≤ poisson_pmf n lam :=
  div_nonneg (mul_nonneg (Real.exp_pos _).le (pow_nonneg h n))
    (Nat.cast_nonneg _)

/-- Partial sums of the Poisson PMF are at most 1. -/
lemma sum_poisson_pmf_le_one {lam : ℝ} (h : 0 ≤ lam) (n : ℕ) :
    ∑ b ∈ Finset.range n, poisson_pmf b lam ≤ 1 := by
  simp only [poisson_pmf, mul_div_assoc]
  rw [← Finset.mul_sum]
  calc Real.exp (-lam) * ∑ b ∈ Finset.range n, lam ^ b / (Nat.factorial b : ℝ)
      ≤ Real.exp (-lam) * Real.exp lam :=
        mul_le_mul_of_nonneg_left (Real.sum_le_exp_of_nonneg h n)
          (Real.exp_pos _).le
    _ = 1 := by rw [← Real.exp_add, neg_add_cancel, Real.exp_zero]

/-- C2: for a non-negative burst-size callback of total mass at most 1 and
positive `k_on`, `L`, positive truncation bound, the engine returns a
probability in `[0, 1]`. -/
theorem compound_pmf_in_unit_interval (x : ℕ) (f : ℕ → ℝ) (k_on L : ℝ)
    (max_bursts : ℕ) (hf : ∀ k, 0 ≤ f k)
    (hfs : ∀ N, ∑ k ∈ Finset.range N, f k ≤ 1)
    (hk : 0 < k_on) (hL : 0 < L) (hM : 1 ≤ max_bursts) :
    0 ≤ pmf_total_compound x f k_on L max_bursts ∧
      pmf_total_compound x f k_on L max_bursts ≤ 1 := by
  have hlam : (0:ℝ) ≤ k_on * L := (mul_pos hk hL).le
  have hbranch0 : ∀ b : ℕ,
      0 ≤ (if b = 0 then (if x = 0 then (1:ℝ) else 0) else convPow f b x) := by
    intro b
    by_cases hb : b = 0
    · by_cases hx : x = 0 <;> norm_num [hb, hx]
    · rw [if_neg hb]
      exact convPow_nonneg hf b x
  have hbranch1 : ∀ b : ℕ,
      (if b = 0 then (if x = 0 then (1:ℝ) else 0) else convPow f b x) ≤ 1 := by
    intro b
    by_cases hb : b = 0
    · by_cases hx : x = 0 <;> norm_num [hb, hx]
    · rw [if_neg hb]
      exact convPow_le_one hf hfs b x
  constructor
  · simp only [pmf_total_compound]
    exact Finset.sum_nonneg fun b _ =>
      mul_nonneg (poisson_pmf_nonneg hlam b) (hbranch0 b)
  · simp only [pmf_total_compound]
    calc ∑ b ∈ Finset.range (max_bursts + 1), poisson_pmf b (k_on * L) *
          (if b = 0 then (if x = 0 then (1:ℝ) else 0) else convPow f b x)
        ≤ ∑ b ∈ Finset.range (max_bursts + 1), poisson_pmf b (k_on * L) :=
          Finset.sum_le_sum fun b _ =>
            mul_le_of_le_one_right (poisson_pmf_nonneg hlam b) (hbranch1 b)
      _ ≤ 1 := sum_poisson_pmf_le_one hlam _

/-- Witness for `compound_pmf_in_unit_interval` at the zero callback,
`x = 0`, `k_on = L = 1`, `max_bursts = 1`. -/
theorem compound_pmf_in_unit_interval_witness :
    (0:ℝ) < 1 ∧ (1:ℕ) ≤ 1 ∧
      0 ≤ pmf_total_compound 0 (fun _ => (0:ℝ)) 1 1 1 ∧
      pmf_total_compound 0 (fun _ => (0:ℝ)) 1 1 1 ≤ 1 :=
  ⟨by norm_num, le_refl 1,
    compound_pmf_in_unit_interval 0 (fun _ => (0:ℝ)) 1 1 1
      (fun _ => le_refl 0) (fun N => by simp) (by norm_num) (by norm_num)
      (le_refl 1)⟩

end BurstModels
